import Mathlib

/-!
Verification of the Whittaker-Eilers smoother (go-whittaker-eilers).

The Go package exposes a single function WESmoother(y, lambda, d) built from
three helpers: speye (intended as a sparse identity, see below), vecDiff
(element-wise difference of
two slices) and differenceMatrix (the banded order-d difference operator).
The smoothed series is obtained by assembling A = E + lambda * (D^T * D),
copying its upper triangle into a symmetric matrix, factorizing that matrix
by Cholesky decomposition (gonum) and solving A z = y.

Embedding choices, recorded once here:

* Arithmetic is exact: float64 is modelled by the rationals.
* Matrices are Mathlib matrices over Fin-indexed types; a slice of floats is
  a List of rationals.
* speye builds CSR slices and hands them to the external constructor
  sparse.NewCSR of the james-bowman/sparse package in the wrong order: the
  documented signature is NewCSR(r, c, ia, ja, data) with ia the
  row-pointer slice, the order used by the correct call in
  differenceMatrix, but speye passes (indices, indptr). Densifying the
  resulting triple walks rows 0..n-2 only, so the stored matrix is the
  identity with an empty last row, diag(1, ..., 1, 0) — the 1x1 zero
  matrix for n = 1 — and not the identity announced by the doc comment of
  speye. The embedding uses this actual densified matrix; see the doc
  comment of speye for the trace. As a consequence the assembled system
  differs from the I + lambda D^T D of the spec in its last row: it is
  singular at lambda = 0 (every lambda = 0 call fails with the cholesky
  error) and positive definite exactly for lambda > 0.
* gonum mat.Cholesky.Factorize is external. Modelled from the spec: in
  exact arithmetic the factorization of a symmetric matrix succeeds
  precisely when the matrix is positive definite, equivalently (Sylvester)
  when every leading principal minor is positive; the embedded test
  choleskyFactorizeOk checks the minors, which keeps it decidable.
* gonum mat.Cholesky.SolveVecTo writes the exact solution of the factorized
  system into the destination buffer and leaves the right-hand-side buffer
  untouched. It is embedded by solveVecToBufs, computing the solution by
  the Cramer rule (exact arithmetic) and returning the right-hand-side
  buffer unchanged.
* A Go runtime or library panic (out-of-range make length, zero-dimension
  gonum matrix) aborts the call without returning a value; it is modelled
  by the distinguished outcome GoErr.runtimePanic, kept apart from an
  error value returned normally (GoErr.returnedError).

WESmoother performs no validation of the order or of lambda: the source has
no InvalidOrder or InvalidLambda error, the only error value it ever
returns is the string "cholesky decomposition failed" (and the error of
SolveVecTo, which in exact arithmetic never fires after a successful
factorization).
-/

open scoped Matrix

/-- Outcome tag for a failed call: either an abnormal termination (Go
runtime panic or a panicking external library call) or an error value
returned normally by the function. -/
inductive GoErr where
  | runtimePanic : GoErr
  | returnedError : String → GoErr
deriving DecidableEq, Repr

/-- vecDiff from wesmoother.go lines 49-55: element-wise difference of two
slices of equal length. -/
def vecDiff (a b : List ℚ) : List ℚ :=
  List.zipWith (fun x y => x - y) a b

/-- The loop of differenceMatrix, lines 63-65: apply
coeffs = vecDiff(coeffs[:len(coeffs)-1], coeffs[1:]) the given number of
times. -/
def diffLoop : ℕ → List ℚ → List ℚ
  | 0, c => c
  | Nat.succ k, c => diffLoop k (vecDiff c.dropLast c.tail)

/-- differenceMatrix lines 60-65: the stencil coefficients, obtained from
the unit impulse of length 2*order+1 centered at the order position by
applying the first-difference step order times. -/
def diffCoeffs (d : ℕ) : List ℚ :=
  diffLoop d ((List.replicate (2 * d + 1) (0 : ℚ)).set d 1)

/-- differenceMatrix lines 67-83, after densification: (n-order) rows, n
columns; row i carries coeffs[j] at column i+j for 0 <= j <= order (the CSR
triple data/indices/indptr built by the loop encodes exactly these
entries), every other entry zero. -/
def differenceMatrix (n d : ℕ) : Matrix (Fin (n - d)) (Fin n) ℚ :=
  Matrix.of fun i j =>
    if i.1 ≤ j.1 ∧ j.1 ≤ i.1 + d then (diffCoeffs d).getD (j.1 - i.1) 0 else 0

/-- speye, lines 32-45. The Go function fills data = 1,...,1 (length n),
indices = 0..n-1 (length n) and indptr = 0..n (length n+1) and returns
sparse.NewCSR(n, n, indices, indptr, data). The documented signature of
NewCSR in the james-bowman/sparse dependency is NewCSR(r, c, ia, ja, data)
with ia the row-pointer slice and ja the column indexes — the order used
by the correct call in differenceMatrix (line 83) — so speye hands the
column indexes where the row pointers belong. Densifying the stored
triple (row pointers 0..n-1 of length n, columns 0..n) walks rows 0..n-2
only, row i holding the single entry 1 at column i, and leaves row n-1
empty: the matrix is diag(1, ..., 1, 0), the identity with an empty last
row (the 1x1 zero matrix for n = 1), not the identity announced by the
doc comment of speye. -/
def speye (n : ℕ) : Matrix (Fin n) (Fin n) ℚ :=
  Matrix.of fun i j => if i = j ∧ i.1 + 1 < n then 1 else 0

/-- WESmoother lines 95-111: A = E + lambda * (D^T * D), with E = speye m
and D = differenceMatrix m d (Mul then Scale then Add, exactly as in the
source). -/
def systemMatrixA (m d : ℕ) (lambda : ℚ) : Matrix (Fin m) (Fin m) ℚ :=
  speye m + lambda • ((differenceMatrix m d)ᵀ * differenceMatrix m d)

/-- WESmoother lines 112-120: the upper triangle of A copied into a
symmetric matrix (SetSym on a SymDense stores entry (i,j), j >= i, and
mirrors it to (j,i)). -/
def symCopy {n : ℕ} (A : Matrix (Fin n) (Fin n) ℚ) : Matrix (Fin n) (Fin n) ℚ :=
  Matrix.of fun i j => if i.1 ≤ j.1 then A i j else A j i

/-- Modelled from the spec: success condition of gonum
mat.Cholesky.Factorize in exact arithmetic. Factorization of a symmetric
matrix succeeds precisely when the matrix is positive definite, which by
the Sylvester criterion is the positivity of every leading principal
minor; the minors make the condition decidable. -/
def choleskyFactorizeOk {n : ℕ} (A : Matrix (Fin n) (Fin n) ℚ) : Prop :=
  ∀ k : Fin n, 0 < (A.submatrix (Fin.castLE k.isLt) (Fin.castLE k.isLt)).det

instance {n : ℕ} (A : Matrix (Fin n) (Fin n) ℚ) : Decidable (choleskyFactorizeOk A) :=
  inferInstanceAs (Decidable (∀ _ : Fin n, _ < _))

/-- The exact solution of A x = b by the Cramer rule; for det A different
from zero this is the unique solution of the system. -/
def solveCramer {n : ℕ} (A : Matrix (Fin n) (Fin n) ℚ) (b : Fin n → ℚ) : Fin n → ℚ :=
  fun i => A.cramer b i / A.det

/-- Modelled from the spec: gonum mat.Cholesky.SolveVecTo(x, b) writes the
solution of the factorized system into the destination buffer backing x
and does not modify the buffer backing b. The pair returned is (new
destination content, right-hand-side buffer after the call). -/
def solveVecToBufs {n : ℕ} (A : Matrix (Fin n) (Fin n) ℚ) (b : List ℚ) :
    List ℚ × List ℚ :=
  (List.ofFn (solveCramer A fun i => b.getD i.1 0), b)

/-- WESmoother lines 92-136, together with the final content of the
backing array of the input slice y (second component). The three panic
branches record, in source evaluation order, the Go panics: a negative
make length inside differenceMatrix when d exceeds len(y) (and the
out-of-range indptr writes when y is empty), the zero-dimension gonum
NewDense panic when densifying E for an empty y, and the same panic when
densifying the zero-row D for d = len(y). -/
def WESmootherWithInput (y : List ℚ) (lambda : ℚ) (d : ℕ) :
    Except GoErr (List ℚ) × List ℚ :=
  if y.length < d then (Except.error GoErr.runtimePanic, y)
  else if y.length = 0 then (Except.error GoErr.runtimePanic, y)
  else if y.length = d then (Except.error GoErr.runtimePanic, y)
  else if choleskyFactorizeOk (symCopy (systemMatrixA y.length d lambda)) then
    let zb := solveVecToBufs (symCopy (systemMatrixA y.length d lambda)) y
    (Except.ok zb.1, zb.2)
  else (Except.error (GoErr.returnedError "cholesky decomposition failed"), y)

/-- The returned value of WESmoother (first component of the call). -/
def WESmoother (y : List ℚ) (lambda : ℚ) (d : ℕ) : Except GoErr (List ℚ) :=
  (WESmootherWithInput y lambda d).1

/-!
Positive definiteness of the assembled system. The matrix 1 + l (B^T B)
with l nonnegative is positive definite over any linearly ordered field
with trivial star, and its determinant is positive; the determinant
positivity is transported from the reals, where Mathlib proves it through
the spectrum.
-/

lemma posSemidef_smul_of_nonneg {K : Type} [LinearOrderedField K] [StarRing K]
    [TrivialStar K] {k : ℕ} {M : Matrix (Fin k) (Fin k) K} (hM : M.PosSemidef)
    {l : K} (hl : 0 ≤ l) : (l • M).PosSemidef := by
  refine ⟨?_, fun x => ?_⟩
  · have h1 := hM.1
    unfold Matrix.IsHermitian at h1 ⊢
    rw [Matrix.conjTranspose_smul, h1, star_trivial]
  · rw [Matrix.smul_mulVec_assoc, Matrix.dotProduct_smul, smul_eq_mul]
    exact mul_nonneg hl (hM.2 x)

lemma posDef_one_add_smul {K : Type} [LinearOrderedField K] [StarRing K]
    [TrivialStar K] [StarOrderedRing K] {r k : ℕ} (B : Matrix (Fin r) (Fin k) K)
    (l : K) (hl : 0 ≤ l) :
    ((1 : Matrix (Fin k) (Fin k) K) + l • (Bᵀ * B)).PosDef := by
  have h2 : (Bᵀ * B).PosSemidef := by
    have h := Matrix.posSemidef_conjTranspose_mul_self B
    rwa [Matrix.conjTranspose_eq_transpose_of_trivial] at h
  exact Matrix.PosDef.one.add_posSemidef (posSemidef_smul_of_nonneg h2 hl)

lemma det_pos_one_add_smul {r k : ℕ} (B : Matrix (Fin r) (Fin k) ℚ) (l : ℚ)
    (hl : 0 ≤ l) :
    0 < ((1 : Matrix (Fin k) (Fin k) ℚ) + l • (Bᵀ * B)).det := by
  set M : Matrix (Fin k) (Fin k) ℚ := 1 + l • (Bᵀ * B) with hM
  have hmap : M.map (fun q : ℚ => (q : ℝ)) =
      (1 : Matrix (Fin k) (Fin k) ℝ) +
        (l : ℝ) • ((B.map (fun q : ℚ => (q : ℝ)))ᵀ * B.map (fun q : ℚ => (q : ℝ))) := by
    ext i j
    simp only [hM, Matrix.map_apply, Matrix.add_apply, Matrix.smul_apply,
      Matrix.one_apply, Matrix.mul_apply, Matrix.transpose_apply, smul_eq_mul]
    push_cast [apply_ite (fun q : ℚ => (q : ℝ))]
    rfl
  have hPD := posDef_one_add_smul (B.map (fun q : ℚ => (q : ℝ))) (l : ℝ)
    (by exact_mod_cast hl)
  have hdetR : 0 < (M.map (fun q : ℚ => (q : ℝ))).det := by
    rw [hmap]; exact hPD.det_pos
  have hcast : ((M.det : ℚ) : ℝ) = (M.map (fun q : ℚ => (q : ℝ))).det := by
    have h := RingHom.map_det (Rat.castHom ℝ) M
    simpa [RingHom.mapMatrix_apply] using h
  rw [← hcast] at hdetR
  exact_mod_cast hdetR

lemma speye_diagonal (n : ℕ) :
    speye n = Matrix.diagonal (fun i : Fin n => if i.1 + 1 < n then (1 : ℚ) else 0) := by
  ext i j
  show (if i = j ∧ i.1 + 1 < n then (1 : ℚ) else 0) = _
  rw [Matrix.diagonal_apply]
  by_cases h : i = j
  · subst h
    by_cases h2 : i.1 + 1 < n
    · rw [if_pos ⟨rfl, h2⟩, if_pos rfl, if_pos h2]
    · rw [if_neg (fun hc => h2 hc.2), if_pos rfl, if_neg h2]
  · rw [if_neg (fun hc => h hc.1), if_neg h]

lemma isSymm_speye (n : ℕ) : (speye n)ᵀ = speye n := by
  rw [speye_diagonal, Matrix.diagonal_transpose]

lemma isSymm_systemMatrixA (m d : ℕ) (l : ℚ) : (systemMatrixA m d l).IsSymm := by
  unfold systemMatrixA Matrix.IsSymm
  rw [Matrix.transpose_add, isSymm_speye, Matrix.transpose_smul,
    Matrix.transpose_mul, Matrix.transpose_transpose]

lemma symCopy_eq {n : ℕ} {A : Matrix (Fin n) (Fin n) ℚ} (h : A.IsSymm) :
    symCopy A = A := by
  ext i j
  show (if i.1 ≤ j.1 then A i j else A j i) = A i j
  split_ifs with hij
  · rfl
  · exact h.apply i j

/-- On index ranges that avoid the last row and column, speye restricts to
the identity, so the strict leading submatrices of the assembled system
keep the shape 1 + l (B^T B). -/
lemma submatrix_systemMatrixA_small (m d : ℕ) (l : ℚ) {k : ℕ} (g : Fin k → Fin m)
    (hg : Function.Injective g) (hgb : ∀ i, (g i).1 + 1 < m) :
    (systemMatrixA m d l).submatrix g g =
      1 + l • (((differenceMatrix m d).submatrix id g)ᵀ *
        (differenceMatrix m d).submatrix id g) := by
  ext i j
  simp [systemMatrixA, speye, Matrix.submatrix_apply, Matrix.add_apply,
    Matrix.smul_apply, Matrix.one_apply, hg.eq_iff, Matrix.mul_apply,
    Matrix.transpose_apply, hgb]

/-- The leading principal minor of full size is the determinant itself. -/
lemma det_submatrix_castLE_eq {n j : ℕ} (h : j + 1 = n) (hlt : j < n)
    (A : Matrix (Fin n) (Fin n) ℚ) :
    (A.submatrix (Fin.castLE hlt) (Fin.castLE hlt)).det = A.det := by
  have he : A.submatrix (Fin.castLE hlt) (Fin.castLE hlt)
      = A.submatrix (finCongr h) (finCongr h) := rfl
  rw [he, Matrix.det_submatrix_equiv_self]

/-!
Correctness of the exact solver.
-/

lemma mulVec_solveCramer {n : ℕ} (A : Matrix (Fin n) (Fin n) ℚ) (b : Fin n → ℚ)
    (h : A.det ≠ 0) : A *ᵥ solveCramer A b = b := by
  have h1 : solveCramer A b = A.det⁻¹ • (A.cramer b) := by
    funext i
    simp [solveCramer, div_eq_inv_mul, Pi.smul_apply, smul_eq_mul]
  rw [h1, Matrix.mulVec_smul, Matrix.mulVec_cramer, smul_smul,
    inv_mul_cancel₀ h, one_smul]

lemma eq_solveCramer_of_mulVec {n : ℕ} {A : Matrix (Fin n) (Fin n) ℚ}
    {b w : Fin n → ℚ} (h : A.det ≠ 0) (hw : A *ᵥ w = b) : w = solveCramer A b := by
  have hu : IsUnit A := A.isUnit_iff_isUnit_det.mpr (isUnit_iff_ne_zero.mpr h)
  have hinj : Function.Injective A.mulVec := Matrix.mulVec_injective_iff_isUnit.mpr hu
  apply hinj
  rw [hw, mulVec_solveCramer A b h]

/-- The input series viewed as a vector indexed by its positions. -/
def seriesVec (y : List ℚ) : Fin y.length → ℚ := fun i => y.getD i.1 0

/-- When the order is at least the series length the call ends in a Go
panic: a negative make length inside differenceMatrix for d > len(y), the
zero-dimension gonum NewDense panic for d = len(y) > 0, and the
out-of-range accesses for an empty series. -/
lemma wesmoother_panic (y : List ℚ) (l : ℚ) (d : ℕ) (hd : y.length ≤ d) :
    WESmoother y l d = Except.error GoErr.runtimePanic := by
  unfold WESmoother WESmootherWithInput
  rcases lt_or_eq_of_le hd with h | h
  · rw [if_pos h]
  · rw [if_neg (by omega)]
    by_cases h0 : y.length = 0
    · rw [if_pos h0]
    · rw [if_neg h0, if_pos h]

/-!
Behavior at lambda = 0: the assembled system is speye itself, whose last
row is zero, so the factorization check fails and the call returns the
cholesky error.
-/

/-- The minor of full size is among the checked minors, so a matrix that
passes the factorization check has positive determinant. -/
lemma det_pos_of_choleskyOk {n : ℕ} (hn : 0 < n) {A : Matrix (Fin n) (Fin n) ℚ}
    (h : choleskyFactorizeOk A) : 0 < A.det := by
  obtain ⟨j, rfl⟩ : ∃ j, n = j + 1 := ⟨n - 1, by omega⟩
  have hk := h ⟨j, by omega⟩
  rwa [det_submatrix_castLE_eq rfl] at hk

lemma not_choleskyOk_of_det_nonpos {n : ℕ} (hn : 0 < n)
    {A : Matrix (Fin n) (Fin n) ℚ} (hdet : A.det ≤ 0) :
    ¬ choleskyFactorizeOk A :=
  fun h => absurd (det_pos_of_choleskyOk hn h) (not_lt.mpr hdet)

lemma not_posDef_speye (m : ℕ) (hm : 0 < m) : ¬ (speye m).PosDef := by
  intro h
  have hxne : (Pi.single (⟨m - 1, by omega⟩ : Fin m) (1 : ℚ) : Fin m → ℚ) ≠ 0 := by
    intro hc
    have h1 := congrFun hc ⟨m - 1, by omega⟩
    simp at h1
  have hmv : speye m *ᵥ Pi.single (⟨m - 1, by omega⟩ : Fin m) (1 : ℚ) = 0 := by
    funext i
    rw [speye_diagonal, Matrix.mulVec_diagonal]
    show (if i.1 + 1 < m then (1 : ℚ) else 0)
        * (Pi.single (⟨m - 1, by omega⟩ : Fin m) (1 : ℚ) : Fin m → ℚ) i
          = (0 : Fin m → ℚ) i
    by_cases hi : i.1 + 1 < m
    · have hne : i ≠ (⟨m - 1, by omega⟩ : Fin m) := by
        intro hc
        have h2 : i.1 = m - 1 := by rw [hc]
        omega
      rw [Pi.single_eq_of_ne hne]
      simp
    · rw [if_neg hi]
      simp
  have h2 := h.2 _ hxne
  rw [hmv] at h2
  simp at h2

lemma not_choleskyOk_speye (m : ℕ) (hm : 0 < m) : ¬ choleskyFactorizeOk (speye m) := by
  apply not_choleskyOk_of_det_nonpos hm
  have hdet : (speye m).det = 0 := by
    apply Matrix.det_eq_zero_of_row_eq_zero (⟨m - 1, by omega⟩ : Fin m)
    intro j
    show (if (⟨m - 1, by omega⟩ : Fin m) = j ∧ (⟨m - 1, by omega⟩ : Fin m).1 + 1 < m
        then (1 : ℚ) else 0) = 0
    rw [if_neg]
    intro hc
    have h2 : m - 1 + 1 < m := hc.2
    omega
  rw [hdet]

lemma wesmoother_lambda_zero (y : List ℚ) (d : ℕ) (hd : d < y.length) :
    WESmoother y 0 d = Except.error (GoErr.returnedError "cholesky decomposition failed") := by
  have hA : systemMatrixA y.length d 0 = speye y.length := by
    unfold systemMatrixA
    rw [zero_smul, add_zero]
  have hsym := symCopy_eq (isSymm_systemMatrixA y.length d 0)
  unfold WESmoother WESmootherWithInput
  rw [if_neg (by omega), if_neg (by omega), if_neg (by omega), hsym, hA,
    if_neg (not_choleskyOk_speye y.length (by omega))]

/-!
Order zero: the difference matrix is the identity and the system collapses
to the diagonal matrix with entries 1 + lambda on the first m - 1 positions
and lambda in the last position (the speye defect).
-/

lemma differenceMatrix_zero (m : ℕ) :
    differenceMatrix m 0 = (1 : Matrix (Fin m) (Fin m) ℚ) := by
  ext i j
  show (if i.1 ≤ j.1 ∧ j.1 ≤ i.1 + 0 then (diffCoeffs 0).getD (j.1 - i.1) 0 else 0)
      = (1 : Matrix (Fin m) (Fin m) ℚ) i j
  rw [Matrix.one_apply]
  by_cases h : i = j
  · have h1 : i.1 = j.1 := congrArg Fin.val h
    rw [if_pos (by omega), if_pos h]
    have h2 : j.1 - i.1 = 0 := by omega
    rw [h2]
    rfl
  · have h1 : ¬ i.1 = j.1 := fun hc => h (Fin.ext hc)
    rw [if_neg (by omega), if_neg h]

lemma systemMatrixA_d0_diagonal (m : ℕ) (l : ℚ) :
    systemMatrixA m 0 l
      = Matrix.diagonal (fun i : Fin m => if i.1 + 1 < m then 1 + l else l) := by
  unfold systemMatrixA
  rw [differenceMatrix_zero, Matrix.transpose_one, Matrix.one_mul, speye_diagonal]
  ext i j
  rw [Matrix.add_apply, Matrix.smul_apply, Matrix.diagonal_apply,
    Matrix.diagonal_apply, Matrix.one_apply]
  by_cases h : i = j
  · rw [if_pos h, if_pos h, if_pos h]
    by_cases h2 : i.1 + 1 < m
    · rw [if_pos h2, if_pos h2]
      simp
    · rw [if_neg h2, if_neg h2]
      simp
  · rw [if_neg h, if_neg h, if_neg h]
    simp

lemma choleskyOk_diagonal {n : ℕ} (f : Fin n → ℚ) (hf : ∀ i, 0 < f i) :
    choleskyFactorizeOk (Matrix.diagonal f) := by
  intro k
  have hs : (Matrix.diagonal f).submatrix (Fin.castLE k.isLt) (Fin.castLE k.isLt)
      = Matrix.diagonal (fun i : Fin (k.1 + 1) => f (Fin.castLE k.isLt i)) := by
    ext i j
    rw [Matrix.submatrix_apply, Matrix.diagonal_apply, Matrix.diagonal_apply]
    by_cases h : i = j
    · subst h
      rw [if_pos rfl, if_pos rfl]
    · rw [if_neg (fun hc => h (Fin.castLE_injective _ hc)), if_neg h]
  rw [hs, Matrix.det_diagonal]
  exact Finset.prod_pos fun i _ => hf _

lemma solveCramer_diagonal {n : ℕ} (f : Fin n → ℚ) (hf : ∀ i, f i ≠ 0)
    (b : Fin n → ℚ) :
    solveCramer (Matrix.diagonal f) b = fun i => b i / f i := by
  have hdet : (Matrix.diagonal f).det ≠ 0 := by
    rw [Matrix.det_diagonal]
    exact Finset.prod_ne_zero_iff.mpr (fun i _ => hf i)
  have hw : Matrix.diagonal f *ᵥ (fun i => b i / f i) = b := by
    funext i
    rw [Matrix.mulVec_diagonal]
    exact mul_div_cancel₀ (b i) (hf i)
  exact (eq_solveCramer_of_mulVec hdet hw).symm

/-- Order zero with positive lambda: the system is diagonal, every sample
except the last is divided by 1 + lambda, and the last sample is divided
by lambda alone (the speye defect leaves the last diagonal entry without
its 1). -/
lemma wesmoother_d0_pos (y : List ℚ) (l : ℚ) (hy : y ≠ []) (hl : 0 < l) :
    WESmoother y l 0 = Except.ok (List.ofFn fun i =>
      seriesVec y i / (if i.1 + 1 < y.length then 1 + l else l)) := by
  have hm : 0 < y.length := List.length_pos.mpr hy
  have hsym := symCopy_eq (isSymm_systemMatrixA y.length 0 l)
  have hf : ∀ i : Fin y.length, (0 : ℚ) < (if i.1 + 1 < y.length then 1 + l else l) := by
    intro i
    split_ifs
    · linarith
    · exact hl
  unfold WESmoother WESmootherWithInput
  rw [if_neg (by omega), if_neg (by omega), if_neg (by omega), hsym,
    systemMatrixA_d0_diagonal, if_pos (choleskyOk_diagonal _ hf)]
  show Except.ok (List.ofFn (solveCramer _ (fun i => y.getD i.1 0))) = _
  rw [solveCramer_diagonal _ (fun i => (hf i).ne')]
  rfl

lemma not_choleskyOk_d0_neg (m : ℕ) (hm : 0 < m) (l : ℚ) (hl : l < 0) :
    ¬ choleskyFactorizeOk
        (Matrix.diagonal (fun i : Fin m => if i.1 + 1 < m then 1 + l else l)) := by
  by_cases h1 : 0 < 1 + l
  · apply not_choleskyOk_of_det_nonpos hm
    rw [Matrix.det_diagonal]
    obtain ⟨n, rfl⟩ : ∃ n, m = n + 1 := ⟨m - 1, by omega⟩
    rw [Fin.prod_univ_castSucc]
    have hc : ∀ i : Fin n,
        (if (Fin.castSucc i).1 + 1 < n + 1 then 1 + l else l) = 1 + l := by
      intro i
      rw [if_pos (by simp only [Fin.coe_castSucc]; have := i.isLt; omega)]
    rw [Finset.prod_congr rfl (fun i _ => hc i), Finset.prod_const,
      Finset.card_univ, Fintype.card_fin]
    have hlast : (if (Fin.last n).1 + 1 < n + 1 then 1 + l else l) = l := by
      rw [if_neg (by simp [Fin.val_last])]
    rw [hlast]
    exact le_of_lt (mul_neg_of_pos_of_neg (pow_pos h1 n) hl)
  · intro h
    have hk := h ⟨0, hm⟩
    rw [Matrix.det_fin_one, Matrix.submatrix_apply, Matrix.diagonal_apply_eq] at hk
    split_ifs at hk
    · exact h1 hk
    · linarith

/-- Order zero with negative lambda: the diagonal system fails the minor
check (first entry when 1 + lambda is not positive, full determinant
otherwise), so the call returns the cholesky error. -/
lemma wesmoother_d0_neg (y : List ℚ) (l : ℚ) (hy : y ≠ []) (hl : l < 0) :
    WESmoother y l 0
      = Except.error (GoErr.returnedError "cholesky decomposition failed") := by
  have hm : 0 < y.length := List.length_pos.mpr hy
  have hsym := symCopy_eq (isSymm_systemMatrixA y.length 0 l)
  unfold WESmoother WESmootherWithInput
  rw [if_neg (by omega), if_neg (by omega), if_neg (by omega), hsym,
    systemMatrixA_d0_diagonal, if_neg (not_choleskyOk_d0_neg y.length hm l hl)]

/-!
Closed form of the stencil: after k first-difference steps the impulse
vector carries signed binomial coefficients. stencilFun d k i is the entry
at position i of the k-times differenced impulse of half-width d.
-/

def stencilFun (d k i : ℕ) : ℚ :=
  if i ≤ d then (-1 : ℚ) ^ (d - i) * (Nat.choose k (d - i)) else 0

def stencilList (d k : ℕ) : List ℚ :=
  (List.range (2 * d + 1 - k)).map (stencilFun d k)

lemma stencilList_zero (d : ℕ) :
    stencilList d 0 = (List.replicate (2 * d + 1) (0 : ℚ)).set d 1 := by
  apply List.ext_getElem
  · simp [stencilList]
  · intro i h1 h2
    simp only [stencilList, List.getElem_map, List.getElem_range, List.getElem_set,
      List.getElem_replicate]
    by_cases hdi : d = i
    · subst hdi
      simp [stencilFun]
    · rw [if_neg hdi]
      unfold stencilFun
      by_cases hle : i ≤ d
      · rw [if_pos hle, Nat.choose_eq_zero_of_lt (by omega)]
        simp
      · rw [if_neg hle]

lemma stencilFun_step (d k i : ℕ) :
    stencilFun d k i - stencilFun d k (i + 1) = stencilFun d (k + 1) i := by
  unfold stencilFun
  by_cases h1 : i ≤ d
  · by_cases h2 : i + 1 ≤ d
    · have ht : d - i = (d - i - 1) + 1 := by omega
      have ht2 : d - (i + 1) = d - i - 1 := by omega
      rw [if_pos h1, if_pos h2, if_pos h1, ht, ht2]
      rw [Nat.choose_succ_succ k (d - i - 1)]
      push_cast
      ring
    · have hid : i = d := by omega
      subst hid
      rw [if_pos h1, if_neg h2, if_pos h1]
      simp
  · rw [if_neg h1, if_neg (by omega), if_neg h1]
    ring

lemma stencilList_step (d k : ℕ) :
    vecDiff (stencilList d k).dropLast (stencilList d k).tail =
      stencilList d (k + 1) := by
  apply List.ext_getElem
  · simp [vecDiff, stencilList]
    omega
  · intro i h1 h2
    simp only [vecDiff, stencilList, List.getElem_zipWith, List.getElem_dropLast,
      List.getElem_tail, List.getElem_map, List.getElem_range]
    exact stencilFun_step d k i

lemma diffLoop_stencil (n : ℕ) : ∀ d k : ℕ,
    diffLoop n (stencilList d k) = stencilList d (k + n) := by
  induction n with
  | zero => intro d k; simp [diffLoop]
  | succ n ih =>
    intro d k
    show diffLoop n (vecDiff (stencilList d k).dropLast (stencilList d k).tail)
        = stencilList d (k + (n + 1))
    rw [stencilList_step, ih]
    congr 1
    omega

lemma diffCoeffs_eq_stencil (d : ℕ) : diffCoeffs d = stencilList d d := by
  unfold diffCoeffs
  rw [← stencilList_zero, diffLoop_stencil d d 0, Nat.zero_add]

/-- The surviving coefficients after the d difference steps are the signed
binomial stencil of order d. -/
lemma diffCoeffs_closedForm (d : ℕ) :
    diffCoeffs d =
      (List.range (d + 1)).map (fun j => (-1 : ℚ) ^ (d + j) * (Nat.choose d j)) := by
  rw [diffCoeffs_eq_stencil]
  unfold stencilList
  rw [show 2 * d + 1 - d = d + 1 by omega]
  apply List.map_congr_left
  intro j hj
  have hjd : j ≤ d := by
    have := List.mem_range.mp hj
    omega
  unfold stencilFun
  rw [if_pos hjd, Nat.choose_symm hjd]
  have hexp : d + j = (d - j) + 2 * j := by omega
  rw [hexp, pow_add, pow_mul]
  norm_num

lemma diffCoeffs_length (d : ℕ) : (diffCoeffs d).length = d + 1 := by
  rw [diffCoeffs_closedForm]
  simp

lemma differenceMatrix_apply (n d : ℕ) (i : Fin (n - d)) (j : Fin n) :
    differenceMatrix n d i j =
      if i.1 ≤ j.1 ∧ j.1 ≤ i.1 + d then (diffCoeffs d).getD (j.1 - i.1) 0 else 0 :=
  rfl

lemma diffCoeffs_two : diffCoeffs 2 = [1, -2, 1] := by
  norm_num [diffCoeffs, diffLoop, vecDiff, List.replicate]

lemma diffCoeffs_getD_d (d : ℕ) : (diffCoeffs d).getD d 0 = 1 := by
  rw [diffCoeffs_closedForm]
  have hd : d < ((List.range (d + 1)).map
      (fun j => (-1 : ℚ) ^ (d + j) * (Nat.choose d j))).length := by
    simp
  rw [List.getD_eq_getElem _ _ hd, List.getElem_map, List.getElem_range,
    Nat.choose_self]
  rw [show d + d = 2 * d from by omega, pow_mul]
  norm_num

/-- The difference matrix has the entry 1 in its last column (row
m - d - 1, the end of the stencil). -/
lemma differenceMatrix_pivot (m d : ℕ) (hd : d < m) :
    differenceMatrix m d ⟨m - d - 1, by omega⟩ ⟨m - 1, by omega⟩ = 1 := by
  show (if m - d - 1 ≤ m - 1 ∧ m - 1 ≤ m - d - 1 + d
      then (diffCoeffs d).getD (m - 1 - (m - d - 1)) 0 else 0) = 1
  rw [if_pos (by omega), show m - 1 - (m - d - 1) = d from by omega,
    diffCoeffs_getD_d]

/-!
Positive definiteness of the actual assembled system. The diagonal part
diag(1, ..., 1, 0) contributed by speye controls all coordinates except
the last; the last coordinate is controlled by the penalty term through
the nonzero entry of the last column of the difference matrix, as soon as
lambda is strictly positive.
-/

lemma posDef_almostId_add_smul {K : Type} [LinearOrderedField K] [StarRing K]
    [TrivialStar K] [StarOrderedRing K] {r m : ℕ}
    (B : Matrix (Fin r) (Fin m) K) (l : K) (hl : 0 < l) (i0 : Fin r)
    (jm : Fin m) (hjm : jm.1 + 1 = m) (hp : B i0 jm ≠ 0) :
    ((Matrix.diagonal fun i : Fin m => if i.1 + 1 < m then (1 : K) else 0)
      + l • (Bᵀ * B)).PosDef := by
  have hBsem : (Bᵀ * B).PosSemidef := by
    have h := Matrix.posSemidef_conjTranspose_mul_self B
    rwa [Matrix.conjTranspose_eq_transpose_of_trivial] at h
  have hlsem : (l • (Bᵀ * B)).PosSemidef :=
    posSemidef_smul_of_nonneg hBsem (le_of_lt hl)
  have hEsym : (Matrix.diagonal fun i : Fin m =>
      if i.1 + 1 < m then (1 : K) else 0).IsHermitian := by
    unfold Matrix.IsHermitian
    rw [Matrix.conjTranspose_eq_transpose_of_trivial, Matrix.diagonal_transpose]
  refine ⟨hEsym.add hlsem.1, fun x hx => ?_⟩
  have hsx : star x = x := funext fun i => star_trivial _
  rw [hsx, Matrix.add_mulVec, Matrix.dotProduct_add, Matrix.smul_mulVec_assoc,
    Matrix.dotProduct_smul, smul_eq_mul]
  have ht2eq : x ⬝ᵥ ((Bᵀ * B) *ᵥ x) = (B *ᵥ x) ⬝ᵥ (B *ᵥ x) := by
    rw [show (Bᵀ * B) *ᵥ x = Bᵀ *ᵥ (B *ᵥ x) from (Matrix.mulVec_mulVec _ _ _).symm,
      Matrix.dotProduct_mulVec, Matrix.vecMul_transpose]
  rw [ht2eq]
  have ht1 : x ⬝ᵥ ((Matrix.diagonal fun i : Fin m =>
        if i.1 + 1 < m then (1 : K) else 0) *ᵥ x)
      = ∑ i, (if i.1 + 1 < m then (1 : K) else 0) * (x i * x i) := by
    simp only [Matrix.dotProduct]
    refine Finset.sum_congr rfl fun i _ => ?_
    rw [Matrix.mulVec_diagonal]
    ring
  rw [ht1]
  have he0 : ∀ i : Fin m, (0 : K) ≤ if i.1 + 1 < m then (1 : K) else 0 := by
    intro i
    split_ifs
    · exact zero_le_one
    · exact le_rfl
  have hterm0 : ∀ i : Fin m,
      (0 : K) ≤ (if i.1 + 1 < m then (1 : K) else 0) * (x i * x i) :=
    fun i => mul_nonneg (he0 i) (mul_self_nonneg _)
  have ht1nonneg : (0 : K) ≤ ∑ i, (if i.1 + 1 < m then (1 : K) else 0) * (x i * x i) :=
    Finset.sum_nonneg fun i _ => hterm0 i
  have ht2nonneg : (0 : K) ≤ (B *ᵥ x) ⬝ᵥ (B *ᵥ x) := by
    simp only [Matrix.dotProduct]
    exact Finset.sum_nonneg fun i _ => mul_self_nonneg _
  rcases lt_or_eq_of_le
      (add_nonneg ht1nonneg (mul_nonneg (le_of_lt hl) ht2nonneg)) with hlt | heq
  · exact hlt
  exfalso
  have ht1zero : ∑ i, (if i.1 + 1 < m then (1 : K) else 0) * (x i * x i) = 0 := by
    have hmn := mul_nonneg (le_of_lt hl) ht2nonneg
    linarith
  have ht2zero : (B *ᵥ x) ⬝ᵥ (B *ᵥ x) = 0 := by
    have hmul : l * ((B *ᵥ x) ⬝ᵥ (B *ᵥ x)) = 0 := by linarith
    rcases mul_eq_zero.mp hmul with h | h
    · exact absurd h (ne_of_gt hl)
    · exact h
  have hxsmall : ∀ i : Fin m, i.1 + 1 < m → x i = 0 := by
    intro i hi
    have hterm := (Finset.sum_eq_zero_iff_of_nonneg
      (fun i _ => hterm0 i)).mp ht1zero i (Finset.mem_univ i)
    rw [if_pos hi, one_mul] at hterm
    exact mul_self_eq_zero.mp hterm
  have hBx0 : (B *ᵥ x) i0 = 0 := by
    have hdot : ∑ i, (B *ᵥ x) i * (B *ᵥ x) i = 0 := ht2zero
    have hall := (Finset.sum_eq_zero_iff_of_nonneg
      (fun i _ => mul_self_nonneg ((B *ᵥ x) i))).mp hdot
    exact mul_self_eq_zero.mp (hall i0 (Finset.mem_univ i0))
  have hxlast : x jm = 0 := by
    have hBi0 : (B *ᵥ x) i0 = ∑ j, B i0 j * x j := rfl
    have hsum : (B *ᵥ x) i0 = B i0 jm * x jm := by
      rw [hBi0]
      refine Finset.sum_eq_single jm (fun j _ hj => ?_)
        (fun hmem => absurd (Finset.mem_univ jm) hmem)
      have hjsmall : j.1 + 1 < m := by
        have hlt2 := j.isLt
        have hne : j.1 ≠ jm.1 := fun hc => hj (Fin.ext hc)
        omega
      rw [hxsmall j hjsmall, mul_zero]
    rw [hsum] at hBx0
    rcases mul_eq_zero.mp hBx0 with h | h
    · exact absurd h hp
    · exact h
  apply hx
  funext i
  by_cases hi : i.1 + 1 < m
  · exact hxsmall i hi
  · have hij : i = jm := Fin.ext (by have hlt3 := i.isLt; omega)
    rw [hij]
    exact hxlast

lemma det_pos_almostId_add_smul {r m : ℕ} (B : Matrix (Fin r) (Fin m) ℚ) (l : ℚ)
    (hl : 0 < l) (i0 : Fin r) (jm : Fin m) (hjm : jm.1 + 1 = m) (hp : B i0 jm ≠ 0) :
    0 < ((Matrix.diagonal fun i : Fin m => if i.1 + 1 < m then (1 : ℚ) else 0)
      + l • (Bᵀ * B)).det := by
  set M : Matrix (Fin m) (Fin m) ℚ :=
    (Matrix.diagonal fun i : Fin m => if i.1 + 1 < m then (1 : ℚ) else 0)
      + l • (Bᵀ * B) with hM
  have hmap : M.map (fun q : ℚ => (q : ℝ)) =
      (Matrix.diagonal fun i : Fin m => if i.1 + 1 < m then (1 : ℝ) else 0) +
        (l : ℝ) • ((B.map (fun q : ℚ => (q : ℝ)))ᵀ * B.map (fun q : ℚ => (q : ℝ))) := by
    ext i j
    simp only [hM, Matrix.map_apply, Matrix.add_apply, Matrix.smul_apply,
      Matrix.diagonal_apply, Matrix.mul_apply, Matrix.transpose_apply, smul_eq_mul]
    push_cast [apply_ite (fun q : ℚ => (q : ℝ))]
    rfl
  have hPD := posDef_almostId_add_smul (B.map (fun q : ℚ => (q : ℝ))) (l : ℝ)
    (by exact_mod_cast hl) i0 jm hjm
    (by
      show ((B i0 jm : ℚ) : ℝ) ≠ 0
      exact_mod_cast hp)
  have hdetR : 0 < (M.map (fun q : ℚ => (q : ℝ))).det := by
    rw [hmap]
    exact hPD.det_pos
  have hcast : ((M.det : ℚ) : ℝ) = (M.map (fun q : ℚ => (q : ℝ))).det := by
    have h := RingHom.map_det (Rat.castHom ℝ) M
    simpa [RingHom.mapMatrix_apply] using h
  rw [← hcast] at hdetR
  exact_mod_cast hdetR

lemma posDef_systemMatrixA_pos (m d : ℕ) (l : ℚ) (hd : d < m) (hl : 0 < l) :
    (systemMatrixA m d l).PosDef := by
  have h := posDef_almostId_add_smul (differenceMatrix m d) l hl
    ⟨m - d - 1, by omega⟩ ⟨m - 1, by omega⟩ (by simp; omega)
    (by rw [differenceMatrix_pivot m d hd]; norm_num)
  rw [systemMatrixA, speye_diagonal]
  exact h

lemma det_pos_systemMatrixA_pos (m d : ℕ) (l : ℚ) (hd : d < m) (hl : 0 < l) :
    0 < (systemMatrixA m d l).det := by
  have h := det_pos_almostId_add_smul (differenceMatrix m d) l hl
    ⟨m - d - 1, by omega⟩ ⟨m - 1, by omega⟩ (by simp; omega)
    (by rw [differenceMatrix_pivot m d hd]; norm_num)
  rw [systemMatrixA, speye_diagonal]
  exact h

lemma choleskyOk_systemMatrixA_pos (m d : ℕ) (l : ℚ) (hd : d < m) (hl : 0 < l) :
    choleskyFactorizeOk (systemMatrixA m d l) := by
  intro k
  by_cases hk : k.1 + 1 < m
  · rw [submatrix_systemMatrixA_small m d l (Fin.castLE k.isLt)
      (Fin.castLE_injective _)
      (fun i => by simp only [Fin.coe_castLE]; have := i.isLt; omega)]
    exact det_pos_one_add_smul _ _ (le_of_lt hl)
  · have hk1 : k.1 + 1 = m := by
      have := k.isLt
      omega
    rw [det_submatrix_castLE_eq hk1]
    exact det_pos_systemMatrixA_pos m d l hd hl

/-- For positive lambda and a well-formed order the call reaches the
solver and returns the Cramer solution of the actually assembled system. -/
lemma wesmoother_ok_eq_pos (y : List ℚ) (l : ℚ) (d : ℕ) (hl : 0 < l)
    (hd : d < y.length) :
    WESmoother y l d =
      Except.ok (List.ofFn (solveCramer (systemMatrixA y.length d l) (seriesVec y))) := by
  have hsym := symCopy_eq (isSymm_systemMatrixA y.length d l)
  unfold WESmoother WESmootherWithInput
  rw [if_neg (by omega), if_neg (by omega), if_neg (by omega), hsym,
    if_pos (choleskyOk_systemMatrixA_pos y.length d l hd hl)]
  rfl

lemma wesmoother_solution_pos (y : List ℚ) (l : ℚ) (d : ℕ) (hd : d < y.length)
    (hl : 0 < l) :
    systemMatrixA y.length d l *ᵥ
      solveCramer (systemMatrixA y.length d l) (seriesVec y) = seriesVec y :=
  mulVec_solveCramer _ _ (det_pos_systemMatrixA_pos _ _ _ hd hl).ne'

/-- The only error value WESmoother ever returns carries the cholesky
message: no InvalidOrder or InvalidLambda error exists in the source. -/
lemma wesmoother_error_string (y : List ℚ) (l : ℚ) (d : ℕ) (s : String)
    (h : WESmoother y l d = Except.error (GoErr.returnedError s)) :
    s = "cholesky decomposition failed" := by
  unfold WESmoother WESmootherWithInput at h
  by_cases h1 : y.length < d
  · rw [if_pos h1] at h
    simp at h
  · rw [if_neg h1] at h
    by_cases h2 : y.length = 0
    · rw [if_pos h2] at h
      simp at h
    · rw [if_neg h2] at h
      by_cases h3 : y.length = d
      · rw [if_pos h3] at h
        simp at h
      · rw [if_neg h3] at h
        by_cases hc : choleskyFactorizeOk (symCopy (systemMatrixA y.length d l))
        · rw [if_pos hc] at h
          simp at h
        · rw [if_neg hc] at h
          simp at h
          exact h.symm

/-- The penalized system as the spec words it (sections 3 and 4.2): the
m-by-m identity plus lambda times the Gram matrix of the difference
operator. Stated from the words of the spec, for comparison against the
system the program actually assembles (systemMatrixA, which is built on
the defective speye). -/
def specSystemMatrix (m d : ℕ) (lambda : ℚ) : Matrix (Fin m) (Fin m) ℚ :=
  1 + lambda • ((differenceMatrix m d)ᵀ * differenceMatrix m d)

/-- Concrete run shared by two refutations below: on the single sample 5
with lambda 1 and order 0 the assembled system is the 1x1 matrix [1]
(speye(1) densifies to the zero matrix), so the program returns [5]. -/
lemma wesmoother_single_five : WESmoother [(5 : ℚ)] 1 0 = Except.ok [(5 : ℚ)] := by
  have h := wesmoother_d0_pos [(5 : ℚ)] 1 (List.cons_ne_nil _ _) one_pos
  rw [h]
  congr 1
  simp [List.ofFn_succ, seriesVec]

/-!
The claims.
-/

/-- C1 counterexample: the claim makes the returned series the unique
solution of A z = y with A = I + lambda D^T D. At y = [5], lambda = 1,
d = 0 the program succeeds and returns [5], because the system it
actually assembles is the 1x1 matrix [1] (speye(1) densifies to the zero
matrix through the swapped NewCSR arguments); but [5] does not solve the
system of the claim, whose matrix is [2]. -/
theorem C1_counterexample :
    WESmoother [(5 : ℚ)] 1 0 = Except.ok [(5 : ℚ)] ∧
    specSystemMatrix 1 0 1 *ᵥ (fun _ => (5 : ℚ)) ≠ (fun _ => (5 : ℚ)) := by
  refine ⟨wesmoother_single_five, fun hc => ?_⟩
  have h0 := congrFun hc 0
  simp [specSystemMatrix, differenceMatrix_zero, Matrix.mulVec, Matrix.dotProduct,
    Fin.sum_univ_one, Matrix.add_apply, Matrix.smul_apply, Matrix.mul_apply,
    Matrix.one_apply, Matrix.transpose_apply] at h0

/-- C1 amended: for every lambda strictly greater than 0 and every order
d below len(y), WESmoother succeeds and the returned series is the unique
length-m solution z of A z = y for the system A the program actually
assembles, speye(m) + lambda D^T D with speye(m) = diag(1, ..., 1, 0); in
particular the output has the length of the input. At lambda = 0 the
assembled system is singular and the call fails with the cholesky error
instead of succeeding. -/
theorem C1_amended_unique_solution (y : List ℚ) (l : ℚ) (d : ℕ)
    (hl : 0 < l) (hd : d < y.length) :
    (∃ zf : Fin y.length → ℚ,
      WESmoother y l d = Except.ok (List.ofFn zf) ∧
      (List.ofFn zf).length = y.length ∧
      systemMatrixA y.length d l *ᵥ zf = seriesVec y ∧
      ∀ w : Fin y.length → ℚ,
        systemMatrixA y.length d l *ᵥ w = seriesVec y → w = zf) ∧
    WESmoother y 0 d = Except.error (GoErr.returnedError "cholesky decomposition failed") := by
  refine ⟨⟨solveCramer (systemMatrixA y.length d l) (seriesVec y),
    wesmoother_ok_eq_pos y l d hl hd, List.length_ofFn _,
    wesmoother_solution_pos y l d hd hl, ?_⟩, wesmoother_lambda_zero y d hd⟩
  intro w hw
  exact eq_solveCramer_of_mulVec (det_pos_systemMatrixA_pos _ _ _ hd hl).ne' hw

theorem C1_amended_witness :
    0 < (1 : ℚ) ∧ 1 < [(1 : ℚ), 2].length ∧
    ((∃ zf : Fin [(1 : ℚ), 2].length → ℚ,
      WESmoother [(1 : ℚ), 2] 1 1 = Except.ok (List.ofFn zf) ∧
      (List.ofFn zf).length = [(1 : ℚ), 2].length ∧
      systemMatrixA [(1 : ℚ), 2].length 1 1 *ᵥ zf = seriesVec [(1 : ℚ), 2] ∧
      ∀ w : Fin [(1 : ℚ), 2].length → ℚ,
        systemMatrixA [(1 : ℚ), 2].length 1 1 *ᵥ w = seriesVec [(1 : ℚ), 2] → w = zf) ∧
    WESmoother [(1 : ℚ), 2] 0 1
      = Except.error (GoErr.returnedError "cholesky decomposition failed")) :=
  ⟨by norm_num, by norm_num,
    C1_amended_unique_solution [(1 : ℚ), 2] 1 1 (by norm_num) (by norm_num)⟩

/-- C2: the identity law is the stated intent (spec section 8, and the
speye doc comment announces an identity matrix), but the code breaks it:
with lambda = 0 the assembled system is diag(1, ..., 1, 0), singular, so
the spec scenario y = [1, 2, 1, 2, 1], lambda = 0, d = 2 returns the
cholesky error and never the input series. The defect is the swapped
argument order in the sparse.NewCSR call of speye. -/
theorem C2_code_bug_eval :
    WESmoother [(1 : ℚ), 2, 1, 2, 1] 0 2
      = Except.error (GoErr.returnedError "cholesky decomposition failed") ∧
    WESmoother [(1 : ℚ), 2, 1, 2, 1] 0 2 ≠ Except.ok [(1 : ℚ), 2, 1, 2, 1] := by
  have h := wesmoother_lambda_zero [(1 : ℚ), 2, 1, 2, 1] 2 (by norm_num)
  refine ⟨h, fun hc => ?_⟩
  rw [h] at hc
  simp at hc

/-- C3: differenceMatrix builds the (m-d) x m banded matrix whose stencil
is the impulse differenced d times; the surviving d+1 coefficients are the
signed binomial stencil, row i carries stencil[j] at column i+j, and order
0 yields the identity. -/
theorem C3_difference_matrix_build (m d : ℕ) (hm : 1 ≤ m) (hd : d < m) :
    (diffCoeffs d).length = d + 1 ∧
    diffCoeffs d =
      (List.range (d + 1)).map (fun j => (-1 : ℚ) ^ (d + j) * (Nat.choose d j)) ∧
    (∀ (i : Fin (m - d)) (j : Fin m),
      differenceMatrix m d i j =
        if i.1 ≤ j.1 ∧ j.1 ≤ i.1 + d then (diffCoeffs d).getD (j.1 - i.1) 0 else 0) ∧
    differenceMatrix m 0 = (1 : Matrix (Fin m) (Fin m) ℚ) :=
  ⟨diffCoeffs_length d, diffCoeffs_closedForm d, fun i j => rfl,
    differenceMatrix_zero m⟩

theorem C3_witness :
    1 ≤ 3 ∧ 2 < 3 ∧
    ((diffCoeffs 2).length = 2 + 1 ∧
    diffCoeffs 2 =
      (List.range (2 + 1)).map (fun j => (-1 : ℚ) ^ (2 + j) * (Nat.choose 2 j)) ∧
    (∀ (i : Fin (3 - 2)) (j : Fin 3),
      differenceMatrix 3 2 i j =
        if i.1 ≤ j.1 ∧ j.1 ≤ i.1 + 2 then (diffCoeffs 2).getD (j.1 - i.1) 0 else 0) ∧
    differenceMatrix 3 0 = (1 : Matrix (Fin 3) (Fin 3) ℚ)) :=
  ⟨by decide, by decide, C3_difference_matrix_build 3 2 (by decide) (by decide)⟩

/-- C4 counterexample: the claim identifies the matrix handed to the
Cholesky factorization with E + lambda D^T D for E the m-by-m identity
produced by speye(m), positive definite for every lambda at least 0. At
m = 1, lambda = 0, d = 0 the matrix handed over is the 1x1 zero matrix
(speye(1) densifies to [0]), which differs from the 1x1 identity of the
claim and is not positive definite. -/
theorem C4_counterexample :
    symCopy (systemMatrixA 1 0 0) ≠ specSystemMatrix 1 0 0 ∧
    ¬ (systemMatrixA 1 0 0).PosDef := by
  have hA : systemMatrixA 1 0 0 = speye 1 := by
    unfold systemMatrixA
    rw [zero_smul, add_zero]
  constructor
  · intro hc
    have h0 := congrFun (congrFun hc 0) 0
    rw [hA] at h0
    simp [symCopy, speye, specSystemMatrix, differenceMatrix_zero,
      Matrix.add_apply, Matrix.smul_apply, Matrix.one_apply] at h0
  · rw [hA]
    exact not_posDef_speye 1 one_pos

/-- C4 amended: the symmetric matrix handed to the Cholesky factorization
equals speye(m) + lambda (D^T D) entrywise, where speye(m) is the matrix
the source actually builds, diag(1, ..., 1, 0) (identity with an empty
last row, from the swapped NewCSR arguments), not the identity; the
assembled system is symmetric, positive definite for every lambda
strictly greater than 0, and not positive definite (singular) at
lambda = 0. -/
theorem C4_amended_assembled_system (y : List ℚ) (l : ℚ) (d : ℕ)
    (hd : d < y.length) :
    symCopy (systemMatrixA y.length d l) =
      speye y.length +
        l • ((differenceMatrix y.length d)ᵀ * differenceMatrix y.length d) ∧
    (systemMatrixA y.length d l).IsSymm ∧
    (0 < l → (systemMatrixA y.length d l).PosDef) ∧
    ¬ (systemMatrixA y.length d 0).PosDef := by
  refine ⟨?_, isSymm_systemMatrixA _ _ _,
    fun hl => posDef_systemMatrixA_pos _ _ _ hd hl, ?_⟩
  · rw [symCopy_eq (isSymm_systemMatrixA _ _ _)]
    rfl
  · rw [show systemMatrixA y.length d 0 = speye y.length from by
      unfold systemMatrixA; rw [zero_smul, add_zero]]
    exact not_posDef_speye _ (by omega)

theorem C4_amended_witness :
    1 < [(1 : ℚ), 2, 3].length ∧
    (symCopy (systemMatrixA [(1 : ℚ), 2, 3].length 1 1) =
      speye [(1 : ℚ), 2, 3].length +
        (1 : ℚ) • ((differenceMatrix [(1 : ℚ), 2, 3].length 1)ᵀ *
          differenceMatrix [(1 : ℚ), 2, 3].length 1) ∧
    (systemMatrixA [(1 : ℚ), 2, 3].length 1 1).IsSymm ∧
    (0 < (1 : ℚ) → (systemMatrixA [(1 : ℚ), 2, 3].length 1 1).PosDef) ∧
    ¬ (systemMatrixA [(1 : ℚ), 2, 3].length 1 0).PosDef) :=
  ⟨by norm_num, C4_amended_assembled_system [(1 : ℚ), 2, 3] 1 1 (by norm_num)⟩

/-- C5: the claim states that WESmoother fails with an InvalidOrder error
value when d is at least len(y). The source performs no such validation:
there is no InvalidOrder error anywhere; for d at least len(y) the call
aborts in a runtime or library panic instead of returning an error value.
At y = [1, 2], lambda = 1, d = 2 the outcome is a panic and is not any
returned error value. -/
theorem C5_counterexample :
    WESmoother [(1 : ℚ), 2] 1 2 = Except.error GoErr.runtimePanic ∧
    ∀ s : String, WESmoother [(1 : ℚ), 2] 1 2 ≠ Except.error (GoErr.returnedError s) := by
  have h := wesmoother_panic [(1 : ℚ), 2] 1 2 (by norm_num)
  refine ⟨h, fun s hc => ?_⟩
  rw [h] at hc
  simp at hc

/-- C5 amended: WESmoother performs no order validation and has no
InvalidOrder error; when d is at least len(y) the call aborts in a Go
runtime or library panic (never a returned error value), and it succeeds
at the boundary d = len(y) - 1 for strictly positive lambda (at
lambda = 0 the assembled system is singular through the speye defect and
the call fails with the cholesky error for every order). -/
theorem C5_amended_order_boundary (y : List ℚ) (l : ℚ) (d : ℕ) :
    (y.length ≤ d → WESmoother y l d = Except.error GoErr.runtimePanic) ∧
    (0 < l → y ≠ [] → ∃ z, WESmoother y l (y.length - 1) = Except.ok z) := by
  refine ⟨wesmoother_panic y l d, fun hl hy => ?_⟩
  have hm : 0 < y.length := List.length_pos.mpr hy
  exact ⟨_, wesmoother_ok_eq_pos y l (y.length - 1) hl (by omega)⟩

theorem C5_amended_witness :
    WESmoother [(1 : ℚ), 2] 1 3 = Except.error GoErr.runtimePanic ∧
    ∃ z, WESmoother [(1 : ℚ), 2] 1 ([(1 : ℚ), 2].length - 1) = Except.ok z :=
  ⟨(C5_amended_order_boundary [(1 : ℚ), 2] 1 3).1 (by norm_num),
   (C5_amended_order_boundary [(1 : ℚ), 2] 1 3).2 (by norm_num)
     (List.cons_ne_nil _ _)⟩

/-- C6 counterexample: the claim states that WESmoother fails with an
InvalidLambda error whenever lambda is negative. The source performs no
lambda validation and defines no InvalidLambda error: at y = [5],
lambda = -1/2, d = 0 the call reaches the factorization of the 1x1 system
[-1/2] (speye(1) densifies to [0]) and returns the cholesky decomposition
error — a factorization failure detected after the matrix work, not a
lambda-validation failure before it. -/
theorem C6_counterexample :
    WESmoother [(5 : ℚ)] (-(1 / 2)) 0
      = Except.error (GoErr.returnedError "cholesky decomposition failed") ∧
    ∀ s : String, WESmoother [(5 : ℚ)] (-(1 / 2)) 0
      = Except.error (GoErr.returnedError s) → s = "cholesky decomposition failed" := by
  have h := wesmoother_d0_neg [(5 : ℚ)] (-(1 / 2)) (List.cons_ne_nil _ _) (by norm_num)
  refine ⟨h, fun s hc => ?_⟩
  rw [h] at hc
  exact (GoErr.returnedError.inj (Except.error.inj hc)).symm

/-- C6 amended: WESmoother performs no lambda validation and has no
InvalidLambda error; the only error value it ever returns is the cholesky
decomposition failure. For negative lambda and order 0 the assembled
diagonal system fails the factorization, so the call returns that
cholesky error — after the matrix work, not before it. -/
theorem C6_amended_no_lambda_check (y : List ℚ) (l : ℚ) (d : ℕ) (s : String) :
    (WESmoother y l d = Except.error (GoErr.returnedError s) →
      s = "cholesky decomposition failed") ∧
    (l < 0 → y ≠ [] → WESmoother y l 0
      = Except.error (GoErr.returnedError "cholesky decomposition failed")) :=
  ⟨wesmoother_error_string y l d s, fun hl hy => wesmoother_d0_neg y l hy hl⟩

theorem C6_amended_witness :
    (WESmoother [(5 : ℚ)] (-1) 0
        = Except.error (GoErr.returnedError "cholesky decomposition failed")) ∧
    ((-1 : ℚ) < 0) :=
  ⟨(C6_amended_no_lambda_check [(5 : ℚ)] (-1) 0 "cholesky decomposition failed").2
      (by norm_num) (List.cons_ne_nil _ _),
   by norm_num⟩

/-- C7: WESmoother never produces a partial result: every call either
returns a complete series of the input length together with no error, or
an error together with no series at all. -/
theorem C7_no_partial_result (y : List ℚ) (l : ℚ) (d : ℕ) :
    (∃ z, WESmoother y l d = Except.ok z ∧ z.length = y.length) ∨
    (∃ e, WESmoother y l d = Except.error e) := by
  unfold WESmoother WESmootherWithInput
  by_cases h1 : y.length < d
  · rw [if_pos h1]; exact Or.inr ⟨_, rfl⟩
  · rw [if_neg h1]
    by_cases h2 : y.length = 0
    · rw [if_pos h2]; exact Or.inr ⟨_, rfl⟩
    · rw [if_neg h2]
      by_cases h3 : y.length = d
      · rw [if_pos h3]; exact Or.inr ⟨_, rfl⟩
      · rw [if_neg h3]
        by_cases hc : choleskyFactorizeOk (symCopy (systemMatrixA y.length d l))
        · rw [if_pos hc]
          exact Or.inl ⟨_, rfl, by simp [solveVecToBufs]⟩
        · rw [if_neg hc]; exact Or.inr ⟨_, rfl⟩

/-- C8: the claim that WESmoother([5], lambda, 0) returns [5] for every
nonnegative lambda is the stated intent (spec section 8), but the code
breaks it: speye(1) densifies to the 1x1 zero matrix, so the assembled
system is [lambda]. At lambda = 0 the call returns the cholesky error
instead of [5]; at lambda = 2 it returns [5/2], not [5] (the code divides
the single sample by lambda, preserving it only at lambda = 1). -/
theorem C8_code_bug_eval :
    WESmoother [(5 : ℚ)] 0 0
      = Except.error (GoErr.returnedError "cholesky decomposition failed") ∧
    WESmoother [(5 : ℚ)] 2 0 = Except.ok [(5 : ℚ) / 2] := by
  refine ⟨wesmoother_lambda_zero [(5 : ℚ)] 0 (by norm_num), ?_⟩
  have h := wesmoother_d0_pos [(5 : ℚ)] 2 (List.cons_ne_nil _ _) (by norm_num)
  rw [h]
  refine congrArg Except.ok ?_
  norm_num [List.ofFn_succ, seriesVec]

/-- C9: the input series is never mutated: the second component of
WESmootherWithInput tracks the content of the backing array of y through
the call (it is read by NewVecDense and SolveVecTo only, which leave it
untouched), and it equals the input on every path. -/
theorem C9_input_not_mutated (y : List ℚ) (l : ℚ) (d : ℕ) :
    (WESmootherWithInput y l d).2 = y := by
  unfold WESmootherWithInput
  split
  · rfl
  · split
    · rfl
    · split
      · rfl
      · split
        · rfl
        · rfl

/-- C10 counterexample: the claim makes every order-0 output sample equal
to the input sample divided by 1 + lambda. At y = [5], lambda = 1, d = 0
the program returns [5] (the 1x1 assembled system is [lambda] because
speye(1) densifies to [0]), while the claimed value is 5 / (1 + 1). -/
theorem C10_counterexample :
    WESmoother [(5 : ℚ)] 1 0 = Except.ok [(5 : ℚ)] ∧
    (5 : ℚ) ≠ 5 / (1 + 1) :=
  ⟨wesmoother_single_five, by norm_num⟩

/-- C10 amended: with order 0 and strictly positive lambda the call
succeeds; every output sample except the last is the input sample divided
by 1 + lambda, and the last output sample is the last input sample
divided by lambda alone, because the last diagonal entry contributed by
speye is 0 instead of 1. At lambda = 0 the call fails with the cholesky
error instead of succeeding. -/
theorem C10_amended_order_zero (y : List ℚ) (l : ℚ) (hy : y ≠ []) (hl : 0 < l) :
    WESmoother y l 0 = Except.ok (List.ofFn fun i =>
      seriesVec y i / (if i.1 + 1 < y.length then 1 + l else l)) :=
  wesmoother_d0_pos y l hy hl

theorem C10_amended_witness :
    [(3 : ℚ), 4] ≠ [] ∧ 0 < (1 : ℚ) ∧
    WESmoother [(3 : ℚ), 4] 1 0 = Except.ok (List.ofFn fun i =>
      seriesVec [(3 : ℚ), 4] i /
        (if i.1 + 1 < [(3 : ℚ), 4].length then 1 + 1 else 1)) :=
  ⟨List.cons_ne_nil _ _, by norm_num,
    C10_amended_order_zero [(3 : ℚ), 4] 1 (List.cons_ne_nil _ _) (by norm_num)⟩
